import Mathlib

/-!
Shallow embedding of the patch stack resolver implemented in
lib/cli_common/cli_common/phabricator.py (class PhabricatorAPI).

Remote conduit calls are modelled as pure functions supplied through an
environment record: `edges` stands for the edge.search conduit call used by
load_parents, `searchDiffs` for search_diffs (already cleaned, so every diff
carries its nullable baseRevision), `rawDiff` for load_raw_diff (a `none`
result models a failing fetch), and `available` for revision_available on the
mercurial working copy.  Side effects that the claims talk about (diff
searches, raw diff fetches, the warning on a missing base and the working
copy checkout) are recorded as an explicit event trace.  Revision and diff
phids are modelled as natural numbers, version control revision identifiers
as strings.
-/

namespace Phab

/-- A differential diff as returned by PhabricatorAPI.search_diffs after its
internal cleaning step: phid, numeric id, owning revision phid, and the
nullable base revision extracted from the refs field. -/
structure Diff where
  phid : Nat
  id : Nat
  revisionPHID : Nat
  baseRevision : Option String
  deriving DecidableEq

/-- Inner for loop of PhabricatorAPI.load_parents over the edge destinations
of one popped phid.  The python loop appends each destination both to the
accumulated parents and to the work list, and stops at the first destination
that was already collected (break on duplicate). -/
def processEdges (dests : List Nat) (parents stack : List Nat) : List Nat × List Nat :=
  match dests with
  | [] => (parents, stack)
  | rev :: rest =>
    if rev ∈ parents then (parents, stack)
    else processEdges rest (parents ++ [rev]) (rev :: stack)

/-- Fuelled while loop of PhabricatorAPI.load_parents.  The python work list
pops from its end, so the head of `stack` here is the most recently pushed
phid.  The fuel only serves to make the recursion structural; termination
with sufficient fuel is proved below. -/
def loadParentsAux (edges : Nat → List Nat) : Nat → List Nat → List Nat → Option (List Nat)
  | 0, _, _ => none
  | _ + 1, parents, [] => some parents
  | fuel + 1, parents, phid :: rest =>
    let pr := processEdges (edges phid) parents rest
    loadParentsAux edges fuel pr.1 pr.2

/-- PhabricatorAPI.load_parents: walk the revision.parent edge graph from a
starting revision phid and collect the ancestor phids in traversal order. -/
def load_parents (edges : Nat → List Nat) (fuel : Nat) (revision_phid : Nat) :
    Option (List Nat) :=
  loadParentsAux edges fuel [] [revision_phid]

/-- Edge function of a linear ancestor chain: for the list of revisions
`c = start :: ancestors`, every revision points to the next one in the list
through a single revision.parent edge, and the last revision has none. -/
def chainEdges (c : List Nat) (n : Nat) : List Nat :=
  match c with
  | [] => []
  | a :: rest => if n = a then rest.take 1 else chainEdges rest n

/-- Stable insertion by ascending numeric diff id: a diff is inserted after
every diff with a smaller or equal id, matching the stability of the python
sorted builtin used in load_patches_stack. -/
def insertById (d : Diff) : List Diff → List Diff
  | [] => [d]
  | e :: es => if d.id < e.id then d :: e :: es else e :: insertById d es

/-- The python expression sorted(diffs, key=lambda x: x[id]): stable sort by
ascending numeric diff id. -/
def sortById (l : List Diff) : List Diff :=
  l.foldl (fun acc d => insertById d acc) []

/-- Diff selection step of load_patches_stack for one parent revision: sort
the diffs of the revision by id and take the last one (the python expression
sorted(...)[-1], which on an empty list fails instead of returning a diff). -/
def selectLastDiff (diffs : List Diff) : Option Diff :=
  (sortById diffs).getLast?

/-- Assignment into the python OrderedDict patches: replace in place when the
key is already present, otherwise append at the end (insertion order). -/
def odInsert (patches : List (Nat × Nat)) (k v : Nat) : List (Nat × Nat) :=
  if patches.any fun kv => kv.1 == k then
    patches.map fun kv => if kv.1 == k then (k, v) else kv
  else patches ++ [(k, v)]

/-- Observable side effects of load_patches_stack that the claims mention. -/
inductive Event where
  | diffSearch (revisionPHID : Nat)
  | fetchRaw (diffId : Nat)
  | warnMissingBase
  | checkout (rev : String)
  deriving DecidableEq

/-- True exactly on a checkout event (a mutation of the working copy). -/
def Event.isCheckout : Event → Bool
  | Event.checkout _ => true
  | _ => false

/-- Failures of load_patches_stack: fuel exhaustion of the embedded walker,
the IndexError raised by sorted(...)[-1] when a parent revision has no diffs,
and a failing raw diff fetch. -/
inductive StackError where
  | fuelOut
  | emptyParentDiffs (revisionPHID : Nat)
  | rawDiffFailed (diffId : Nat)
  deriving DecidableEq

/-- Pure model of the remote endpoint and the working copy as consumed by
load_patches_stack. -/
structure Env where
  edges : Nat → List Nat
  searchDiffs : Nat → List Diff
  rawDiff : Nat → Option String
  available : String → Bool

/-- The for loop of load_patches_stack over the resolved parents: select the
most recent diff of each parent, record its phid and id in the patches
OrderedDict, and remember the base revision of the diff processed last.  The
base accumulator starts at the base revision of the target diff, which is
exactly the value the python code uses when the parent list is empty. -/
def processParents (env : Env) :
    List Nat → List (Nat × Nat) → Option String →
      Except StackError (List (Nat × Nat) × Option String) × List Event
  | [], patches, base => (Except.ok (patches, base), [])
  | p :: ps, patches, _ =>
    match selectLastDiff (env.searchDiffs p) with
    | none => (Except.error (StackError.emptyParentDiffs p), [Event.diffSearch p])
    | some d =>
      let r := processParents env ps (odInsert patches d.phid d.id) d.baseRevision
      (r.1, Event.diffSearch p :: r.2)

/-- Base resolution of load_patches_stack: when the candidate base is None or
not available in the working copy, fall back to the default revision; the
boolean records whether the warning about a missing base was logged. -/
def resolveBase (available : String → Bool) (cand : Option String)
    (default_revision : String) : String × Bool :=
  match cand with
  | none => (default_revision, true)
  | some b => if available b then (b, false) else (default_revision, true)

/-- The raw diff fetch loop of load_patches_stack: every entry of the patches
OrderedDict is resolved to its raw content; the first failing fetch aborts. -/
def fetchAll (env : Env) :
    List (Nat × Nat) → Except StackError (List (Nat × String)) × List Event
  | [] => (Except.ok [], [])
  | (phid, i) :: rest =>
    match env.rawDiff i with
    | none => (Except.error (StackError.rawDiffFailed i), [Event.fetchRaw i])
    | some s =>
      match fetchAll env rest with
      | (Except.error e, evs) => (Except.error e, Event.fetchRaw i :: evs)
      | (Except.ok xs, evs) => (Except.ok ((phid, s) :: xs), Event.fetchRaw i :: evs)

/-- Steps of PhabricatorAPI.load_patches_stack after the parents are known:
build the patches OrderedDict seeded with the target diff, resolve the base
revision, fetch every raw diff, check the working copy out at the resolved
base and return the entries in reverse insertion order.  The returned string
is the revision descriptor of the working copy after the checkout, identified
here with the resolved base. -/
def stackAfterParents (env : Env) (diff : Diff) (default_revision : String)
    (parents : List Nat) :
    Except StackError (String × List (Nat × String)) × List Event :=
  match processParents env parents [(diff.phid, diff.id)] diff.baseRevision with
  | (Except.error e, evs) => (Except.error e, evs)
  | (Except.ok (patches, cand), evs1) =>
    let rb := resolveBase env.available cand default_revision
    let evs2 := if rb.2 then [Event.warnMissingBase] else []
    match fetchAll env patches with
    | (Except.error e, evs3) => (Except.error e, evs1 ++ evs2 ++ evs3)
    | (Except.ok fetched, evs3) =>
      (Except.ok (rb.1, fetched.reverse),
        evs1 ++ evs2 ++ evs3 ++ [Event.checkout rb.1])

/-- PhabricatorAPI.load_patches_stack: load the full stack of patches for a
target diff, walking its parents, selecting the latest diff per parent,
resolving the base revision and fetching all raw contents before the working
copy is updated. -/
def load_patches_stack (env : Env) (fuel : Nat) (diff : Diff)
    (default_revision : String) :
    Except StackError (String × List (Nat × String)) × List Event :=
  (load_parents env.edges fuel diff.revisionPHID).elim
    (Except.error StackError.fuelOut, [])
    (stackAfterParents env diff default_revision)

/-- Parsed conduit response envelope of PhabricatorAPI.request. -/
structure ConduitResponse (α : Type) where
  error_code : Option String
  error_info : Option String
  result : α

/-- Payload of the ConduitError exception: the error code and error info
taken from the response envelope. -/
structure ConduitFailure where
  error_code : Option String
  error_info : Option String
  deriving DecidableEq

/-- Log records emitted by the conduit layer; the ConduitError constructor
logs the error code and info at warning level. -/
inductive ConduitLog where
  | warnError (code : Option String) (info : Option String)
  deriving DecidableEq

/-- ConduitError.raise_if_error: raise (and log at warning level) when the
envelope carries a non null error_code. -/
def raise_if_error (error_code error_info : Option String) :
    Except ConduitFailure Unit × List ConduitLog :=
  match error_code with
  | some c =>
    (Except.error { error_code := some c, error_info := error_info },
      [ConduitLog.warnError (some c) error_info])
  | none => (Except.ok (), [])

/-- PhabricatorAPI.request after the envelope is parsed: check the error
code, then return the result field. -/
def request {α : Type} (resp : ConduitResponse α) :
    Except ConduitFailure α × List ConduitLog :=
  match raise_if_error resp.error_code resp.error_info with
  | (Except.error e, logs) => (Except.error e, logs)
  | (Except.ok _, logs) => (Except.ok resp.result, logs)

/-- State of the functools.lru_cache(maxsize=2048) wrapper around
revision_exists_on_central: the cached keys in most recently used first
order, and the number of underlying remote requests performed so far. -/
structure LruState where
  keys : List Nat
  calls : Nat
  deriving DecidableEq

/-- Remove the first occurrence of a key from the recency list. -/
def lruErase (k : Nat) : List Nat → List Nat
  | [] => []
  | a :: l => if a = k then l else a :: lruErase k l

/-- One call through the functools.lru_cache wrapper: a hit moves the key to
the front and performs no remote request, a miss performs one remote request,
inserts the key at the front and evicts the least recently used key once the
cache holds more than maxsize entries. -/
def lruCall (maxsize : Nat) (s : LruState) (k : Nat) : LruState :=
  if k ∈ s.keys then { keys := k :: lruErase k s.keys, calls := s.calls }
  else { keys := (k :: s.keys).take maxsize, calls := s.calls + 1 }

/-- A sequence of calls through the lru cache wrapper. -/
def lruRun (maxsize : Nat) (s : LruState) (ks : List Nat) : LruState :=
  ks.foldl (lruCall maxsize) s

/-- Position of the first occurrence of a key in the recency list (length of
the list when absent). -/
def keyPos (k : Nat) : List Nat → Nat
  | [] => 0
  | a :: l => if a = k then 0 else keyPos k l + 1

/-- Processing the edge destinations of one popped phid appends a block of
fresh revisions (no duplicates, none already collected, all destinations of
the popped phid) to the parents and pushes the same block onto the stack. -/
lemma processEdges_spec :
    ∀ (dests parents stack : List Nat), ∃ fresh : List Nat,
      processEdges dests parents stack = (parents ++ fresh, fresh.reverse ++ stack) ∧
      fresh.Nodup ∧ ∀ r ∈ fresh, r ∉ parents ∧ r ∈ dests := by
  intro dests
  induction dests with
  | nil =>
    intro parents stack
    exact ⟨[], by simp [processEdges], by simp, by simp⟩
  | cons rev rest ih =>
    intro parents stack
    by_cases hrev : rev ∈ parents
    · exact ⟨[], by simp [processEdges, hrev], by simp, by simp⟩
    · obtain ⟨fresh1, heq, hnd, hmem⟩ := ih (parents ++ [rev]) (rev :: stack)
      refine ⟨rev :: fresh1, ?_, ?_, ?_⟩
      · rw [processEdges.eq_def]
        simp only [if_neg hrev]
        rw [heq]
        simp [List.append_assoc]
      · refine List.nodup_cons.mpr ⟨fun hc => (hmem rev hc).1 (by simp), hnd⟩
      · intro r hr
        rcases List.mem_cons.mp hr with h1 | h1
        · subst h1; exact ⟨hrev, by simp⟩
        · obtain ⟨h2, h3⟩ := hmem r h1
          exact ⟨fun hc => h2 (by simp [hc]), by simp [h3]⟩

/-- With enough fuel (one unit per identity of a finite universe covering all
edge destinations, plus the pending stack) the walker terminates and returns
a duplicate free list of parents. -/
lemma loadParentsAux_total (edges : Nat → List Nat) (univ : Finset Nat)
    (h : ∀ n, ∀ r ∈ edges n, r ∈ univ) :
    ∀ fuel parents stack, parents.Nodup →
      (univ \ parents.toFinset).card + stack.length + 1 ≤ fuel →
      ∃ l, loadParentsAux edges fuel parents stack = some l ∧ l.Nodup := by
  intro fuel
  induction fuel with
  | zero => intro parents stack _ hle; omega
  | succ f ih =>
    intro parents stack hnd hle
    cases stack with
    | nil => exact ⟨parents, rfl, hnd⟩
    | cons phid rest =>
      simp only [List.length_cons] at hle
      obtain ⟨fresh, heq, hfnd, hfmem⟩ := processEdges_spec (edges phid) parents rest
      have hdisj : parents.Disjoint fresh := fun a ha hb => (hfmem a hb).1 ha
      have hnd2 : (parents ++ fresh).Nodup := hnd.append hfnd hdisj
      have hsub : fresh.toFinset ⊆ univ \ parents.toFinset := by
        intro r hr
        rw [List.mem_toFinset] at hr
        rw [Finset.mem_sdiff]
        exact ⟨h phid r (hfmem r hr).2,
          fun hc => (hfmem r hr).1 (List.mem_toFinset.mp hc)⟩
      have hflen : fresh.length ≤ (univ \ parents.toFinset).card := by
        have h2 := Finset.card_le_card hsub
        rwa [List.toFinset_card_of_nodup hfnd] at h2
      have hcard : (univ \ (parents ++ fresh).toFinset).card
          = (univ \ parents.toFinset).card - fresh.length := by
        have hset : univ \ (parents ++ fresh).toFinset
            = (univ \ parents.toFinset) \ fresh.toFinset := by
          ext r
          simp only [List.toFinset_append, Finset.mem_sdiff, Finset.mem_union]
          tauto
        rw [hset, Finset.card_sdiff hsub, List.toFinset_card_of_nodup hfnd]
      have hle2 : (univ \ (parents ++ fresh).toFinset).card
          + (fresh.reverse ++ rest).length + 1 ≤ f := by
        rw [hcard]
        simp only [List.length_append, List.length_reverse]
        omega
      obtain ⟨l, hl, hlnd⟩ := ih (parents ++ fresh) (fresh.reverse ++ rest) hnd2 hle2
      refine ⟨l, ?_, hlnd⟩
      simp only [loadParentsAux]
      rw [heq]
      exact hl

/-- Claim C3: for every finite revision edge graph, cycles included, the
load_parents walker terminates (given fuel proportional to the universe of
revisions) and the returned ancestor sequence contains no revision identity
twice: an already collected ancestor stops the expansion instead of being
appended again. -/
theorem load_parents_terminates_nodup (edges : Nat → List Nat) (univ : Finset Nat)
    (start fuel : Nat) (h : ∀ n, ∀ r ∈ edges n, r ∈ univ)
    (hfuel : univ.card + 2 ≤ fuel) :
    ∃ l, load_parents edges fuel start = some l ∧ l.Nodup := by
  refine loadParentsAux_total edges univ h fuel [] [start] List.nodup_nil ?_
  simpa using hfuel

/-- Witness for claim C3 on the two revision cycle: revision 0 lists 1 as
parent and revision 1 lists 0 again; the walker still terminates and returns
a duplicate free list. -/
theorem load_parents_terminates_nodup_witness :
    ∃ l, load_parents (fun n => if n = 0 then [1] else if n = 1 then [0] else []) 4 0
        = some l ∧ l.Nodup := by
  refine load_parents_terminates_nodup _ ({0, 1} : Finset Nat) 0 4 ?_ (by decide)
  intro n r hr
  by_cases h0 : n = 0
  · subst h0
    simp at hr
    subst hr; decide
  · by_cases h1 : n = 1
    · subst h1
      simp at hr
      subst hr; decide
    · simp [h0, h1] at hr

/-- On a linear chain the edge query of a revision in the chain returns
exactly the next chain element (or nothing for the last one). -/
lemma chainEdges_at :
    ∀ (pre : List Nat) (cur : Nat) (suf : List Nat), cur ∉ pre →
      chainEdges (pre ++ cur :: suf) cur = suf.take 1 := by
  intro pre
  induction pre with
  | nil => intro cur suf _; simp [chainEdges]
  | cons p pre2 ih =>
    intro cur suf hcur
    have hne : cur ≠ p := fun hc => hcur (by simp [hc])
    simp only [List.cons_append, chainEdges, if_neg hne]
    exact ih cur suf fun hc => hcur (List.mem_cons_of_mem p hc)

/-- Walking a linear chain from any chain position appends exactly the
remaining chain suffix to the accumulated parents. -/
lemma loadParentsAux_chain :
    ∀ (suf pre : List Nat) (cur : Nat) (p : List Nat) (fuel : Nat),
      (pre ++ cur :: suf).Nodup → (∀ x ∈ suf, x ∉ p) → suf.length + 2 ≤ fuel →
      loadParentsAux (chainEdges (pre ++ cur :: suf)) fuel p [cur] = some (p ++ suf) := by
  intro suf
  induction suf with
  | nil =>
    intro pre cur p fuel hnd hp hfuel
    obtain ⟨f, rfl⟩ : ∃ f, fuel = f + 2 := ⟨fuel - 2, by omega⟩
    have hcur : cur ∉ pre := fun hc => (List.nodup_append.mp hnd).2.2 hc (by simp)
    simp only [loadParentsAux]
    rw [chainEdges_at pre cur [] hcur]
    simp [processEdges, loadParentsAux]
  | cons b suf2 ih =>
    intro pre cur p fuel hnd hp hfuel
    obtain ⟨f, rfl⟩ : ∃ f, fuel = f + 1 := ⟨fuel - 1, by omega⟩
    have hcur : cur ∉ pre := fun hc => (List.nodup_append.mp hnd).2.2 hc (by simp)
    have hbp : b ∉ p := hp b (by simp)
    have hbs : b ∉ suf2 := by
      have h2 : (cur :: b :: suf2).Nodup := (List.nodup_append.mp hnd).2.1
      exact (List.nodup_cons.mp (List.nodup_cons.mp h2).2).1
    simp only [loadParentsAux]
    rw [chainEdges_at pre cur (b :: suf2) hcur]
    simp only [List.take_succ_cons, List.take_zero]
    rw [processEdges.eq_def]
    simp only [if_neg hbp]
    rw [processEdges.eq_def]
    have hshape : pre ++ cur :: b :: suf2 = (pre ++ [cur]) ++ b :: suf2 := by
      simp [List.append_assoc]
    rw [hshape]
    have hrec := ih (pre ++ [cur]) b (p ++ [b]) f (by rw [← hshape]; exact hnd)
      ?_ ?_
    · rw [hrec]
      simp [List.append_assoc]
    · intro x hx
      simp only [List.mem_append, List.mem_singleton]
      rintro (hc | hc)
      · exact hp x (by simp [hx]) hc
      · subst hc; exact hbs hx
    · simp only [List.length_cons] at hfuel
      omega

/-- The walker applied to a linear chain with start revision s and ancestor
list l returns exactly l. -/
lemma load_parents_chain_eq (s : Nat) (l : List Nat) (fuel : Nat)
    (hnd : (s :: l).Nodup) (hfuel : l.length + 2 ≤ fuel) :
    load_parents (chainEdges (s :: l)) fuel s = some l := by
  have h2 := loadParentsAux_chain l [] s [] fuel (by simpa using hnd) (by simp) hfuel
  simpa [load_parents] using h2

/-- Claim C2: for every revision whose parent edge graph is a linear chain of
N ancestors, load_parents returns exactly the N ancestor identities, each
once, ordered from the nearest parent to the most distant ancestor. -/
theorem load_parents_linear_chain (s : Nat) (l : List Nat) (fuel : Nat)
    (hnd : (s :: l).Nodup) (hfuel : l.length + 2 ≤ fuel) :
    load_parents (chainEdges (s :: l)) fuel s = some l ∧ l.Nodup :=
  ⟨load_parents_chain_eq s l fuel hnd hfuel, (List.nodup_cons.mp hnd).2⟩

/-- Witness for claim C2 on a chain of three ancestors. -/
theorem load_parents_linear_chain_witness :
    load_parents (chainEdges [0, 1, 2, 3]) 5 0 = some [1, 2, 3]
      ∧ ([1, 2, 3] : List Nat).Nodup :=
  load_parents_linear_chain 0 [1, 2, 3] 5 (by decide) (by decide)

/-- Inserting a diff permutes consing it at the front. -/
lemma insertById_perm (d : Diff) : ∀ l : List Diff, List.Perm (insertById d l) (d :: l) := by
  intro l
  induction l with
  | nil => exact List.Perm.refl _
  | cons e es ih =>
    simp only [insertById]
    by_cases h : d.id < e.id
    · rw [if_pos h]
    · rw [if_neg h]
      exact (ih.cons e).trans (List.Perm.swap d e es)

/-- The insertion sort fold permutes its input. -/
lemma foldl_insertById_perm : ∀ (l acc : List Diff),
    List.Perm (l.foldl (fun a d => insertById d a) acc) (acc ++ l) := by
  intro l
  induction l with
  | nil => intro acc; simp
  | cons d ds ih =>
    intro acc
    have h1 := ih (insertById d acc)
    have h2 : List.Perm (insertById d acc ++ ds) ((d :: acc) ++ ds) :=
      (insertById_perm d acc).append_right ds
    have h3 : List.Perm (d :: (acc ++ ds)) (acc ++ d :: ds) := List.perm_middle.symm
    exact (h1.trans h2).trans h3

/-- sortById permutes its input. -/
lemma sortById_perm (l : List Diff) : List.Perm (sortById l) l := by
  have h := foldl_insertById_perm l []
  simpa [sortById] using h

/-- Insertion preserves the ascending id ordering. -/
lemma insertById_pairwise (d : Diff) :
    ∀ l : List Diff, l.Pairwise (fun a b => a.id ≤ b.id) →
      (insertById d l).Pairwise (fun a b => a.id ≤ b.id) := by
  intro l
  induction l with
  | nil => intro _; simp [insertById]
  | cons e es ih =>
    intro hp
    obtain ⟨he, hes⟩ := List.pairwise_cons.mp hp
    simp only [insertById]
    by_cases h : d.id < e.id
    · rw [if_pos h]
      refine List.pairwise_cons.mpr ⟨?_, hp⟩
      intro x hx
      rcases List.mem_cons.mp hx with h1 | h1
      · subst h1; omega
      · have h2 := he x h1; omega
    · rw [if_neg h]
      refine List.pairwise_cons.mpr ⟨?_, ih hes⟩
      intro x hx
      have hx2 : x ∈ d :: es := (insertById_perm d es).mem_iff.mp hx
      rcases List.mem_cons.mp hx2 with h1 | h1
      · subst h1; omega
      · exact he x h1

/-- The output of sortById is sorted by ascending id. -/
lemma sortById_pairwise (l : List Diff) :
    (sortById l).Pairwise (fun a b => a.id ≤ b.id) := by
  suffices h : ∀ (l2 acc : List Diff), acc.Pairwise (fun a b => a.id ≤ b.id) →
      (l2.foldl (fun a d => insertById d a) acc).Pairwise (fun a b => a.id ≤ b.id) by
    exact h l [] (by simp)
  intro l2
  induction l2 with
  | nil => intro acc h2; simpa using h2
  | cons d ds ih =>
    intro acc h2
    exact ih (insertById d acc) (insertById_pairwise d acc h2)

/-- The last element of an option valued getLast is a member. -/
lemma mem_of_getLastOpt {α : Type} : ∀ (l : List α) (m : α), l.getLast? = some m → m ∈ l := by
  intro l
  induction l with
  | nil => intro m h; simp at h
  | cons a l2 ih =>
    intro m h
    cases l2 with
    | nil => simp [List.getLast?] at h; simp [h]
    | cons b l3 =>
      rw [List.getLast?_cons_cons] at h
      exact List.mem_cons_of_mem a (ih m h)

/-- In a list sorted by ascending id the last element has the largest id. -/
lemma pairwise_getLast_max :
    ∀ (l : List Diff) (m : Diff), l.Pairwise (fun a b => a.id ≤ b.id) →
      l.getLast? = some m → ∀ x ∈ l, x.id ≤ m.id := by
  intro l
  induction l with
  | nil => intro m _ h; simp at h
  | cons a l2 ih =>
    intro m hp hm x hx
    cases l2 with
    | nil =>
      simp [List.getLast?] at hm
      simp at hx
      subst hm; subst hx
      omega
    | cons b l3 =>
      rw [List.getLast?_cons_cons] at hm
      obtain ⟨ha, hp2⟩ := List.pairwise_cons.mp hp
      rcases List.mem_cons.mp hx with h1 | h1
      · subst h1
        exact ha m (mem_of_getLastOpt (b :: l3) m hm)
      · exact ih m hp2 hm x h1

/-- Claim C6: for a non empty list of diff snapshots of a revision, the diff
selection step of load_patches_stack returns a member of the list whose
numeric id is maximal. -/
theorem selectLastDiff_max (diffs : List Diff) (m : Diff)
    (h : selectLastDiff diffs = some m) :
    m ∈ diffs ∧ ∀ d ∈ diffs, d.id ≤ m.id := by
  unfold selectLastDiff at h
  constructor
  · exact (sortById_perm diffs).mem_iff.mp (mem_of_getLastOpt (sortById diffs) m h)
  · intro d hd
    exact pairwise_getLast_max (sortById diffs) m (sortById_pairwise diffs) h d
      ((sortById_perm diffs).mem_iff.mpr hd)

/-- Witness for claim C6: among snapshots with sequence ids 3, 7 and 5 the
snapshot with id 7 is selected, is a member, and its id is maximal. -/
theorem selectLastDiff_max_witness :
    (⟨21, 7, 9, none⟩ : Diff) ∈ [⟨20, 3, 9, none⟩, ⟨21, 7, 9, none⟩, ⟨22, 5, 9, none⟩]
      ∧ ∀ d ∈ ([⟨20, 3, 9, none⟩, ⟨21, 7, 9, none⟩, ⟨22, 5, 9, none⟩] : List Diff),
        d.id ≤ (⟨21, 7, 9, none⟩ : Diff).id :=
  selectLastDiff_max [⟨20, 3, 9, none⟩, ⟨21, 7, 9, none⟩, ⟨22, 5, 9, none⟩]
    ⟨21, 7, 9, none⟩ (by decide)

/-- Assigning a key that is not yet present into the OrderedDict appends the
pair at the end. -/
lemma odInsert_not_mem (patches : List (Nat × Nat)) (k v : Nat)
    (h : ∀ kv ∈ patches, kv.1 ≠ k) : odInsert patches k v = patches ++ [(k, v)] := by
  have hany : (patches.any fun kv => kv.1 == k) = false := by
    rw [List.any_eq_false]
    intro kv hkv
    simpa using h kv hkv
  simp [odInsert, hany]

/-- Successful run of the parent loop: the patches OrderedDict accumulates
one insertion per parent and the base accumulator ends at the base revision
of the diff selected for the last parent. -/
lemma processParents_ok (env : Env) (sel : Nat → Diff) :
    ∀ (l : List Nat) (patches : List (Nat × Nat)) (b0 : Option String),
      (∀ p ∈ l, selectLastDiff (env.searchDiffs p) = some (sel p)) →
      processParents env l patches b0 =
        (Except.ok (l.foldl (fun acc p => odInsert acc (sel p).phid (sel p).id) patches,
            (l.getLast?.map fun q => (sel q).baseRevision).getD b0),
          l.map Event.diffSearch) := by
  intro l
  induction l with
  | nil => intro patches b0 _; simp [processParents]
  | cons p ps ih =>
    intro patches b0 hsel
    have hp := hsel p (by simp)
    simp only [processParents, hp]
    rw [ih (odInsert patches (sel p).phid (sel p).id) (sel p).baseRevision
      fun q hq => hsel q (by simp [hq])]
    cases ps with
    | nil => simp
    | cons a ps2 =>
      cases hq : (a :: ps2).getLast? with
      | none => exact absurd (List.getLast?_eq_none_iff.mp hq) (by simp)
      | some q => simp [List.getLast?_cons_cons, hq]

/-- With duplicate free phids the OrderedDict fold is plain appending. -/
lemma foldl_odInsert (sel : Nat → Diff) :
    ∀ (l : List Nat) (patches : List (Nat × Nat)),
      ((patches.map Prod.fst) ++ l.map fun p => (sel p).phid).Nodup →
      l.foldl (fun acc p => odInsert acc (sel p).phid (sel p).id) patches
        = patches ++ l.map fun p => ((sel p).phid, (sel p).id) := by
  intro l
  induction l with
  | nil => intro patches _; simp
  | cons p ps ih =>
    intro patches hnd
    have hkey : (sel p).phid ∉ patches.map Prod.fst := by
      have hd := (List.nodup_append.mp hnd).2.2
      exact fun hc => hd hc (by simp)
    have hins : odInsert patches (sel p).phid (sel p).id
        = patches ++ [((sel p).phid, (sel p).id)] := by
      refine odInsert_not_mem patches _ _ ?_
      intro kv hkv hc
      exact hkey (by rw [← hc]; exact List.mem_map_of_mem Prod.fst hkv)
    have ih2 := ih (patches ++ [((sel p).phid, (sel p).id)]) (by simpa using hnd)
    simp only [List.foldl_cons]
    rw [hins, ih2]
    simp

/-- When every raw diff fetch succeeds the fetch loop maps every OrderedDict
entry to its content and records one fetch event per entry. -/
lemma fetchAll_ok (env : Env) (cont : Nat → String)
    (hraw : ∀ i, env.rawDiff i = some (cont i)) :
    ∀ pl : List (Nat × Nat),
      fetchAll env pl = (Except.ok (pl.map fun kv => (kv.1, cont kv.2)),
        pl.map fun kv => Event.fetchRaw kv.2) := by
  intro pl
  induction pl with
  | nil => simp [fetchAll]
  | cons kv rest ih =>
    obtain ⟨phid, i⟩ := kv
    simp only [fetchAll, hraw i]
    rw [ih]
    simp

/-- Fully successful run of load_patches_stack, in terms of the walker
output, the selected parent diffs and the fetched contents. -/
lemma load_patches_stack_ok (env : Env) (diff : Diff) (dflt : String) (l : List Nat)
    (sel : Nat → Diff) (cont : Nat → String) (fuel : Nat)
    (hpar : load_parents env.edges fuel diff.revisionPHID = some l)
    (hsel : ∀ p ∈ l, selectLastDiff (env.searchDiffs p) = some (sel p))
    (hraw : ∀ i, env.rawDiff i = some (cont i)) :
    load_patches_stack env fuel diff dflt =
      (Except.ok ((resolveBase env.available
            ((l.getLast?.map fun q => (sel q).baseRevision).getD diff.baseRevision)
            dflt).1,
          ((l.foldl (fun acc p => odInsert acc (sel p).phid (sel p).id)
              [(diff.phid, diff.id)]).map fun kv => (kv.1, cont kv.2)).reverse),
        l.map Event.diffSearch
          ++ (if (resolveBase env.available
                ((l.getLast?.map fun q => (sel q).baseRevision).getD diff.baseRevision)
                dflt).2
              then [Event.warnMissingBase] else [])
          ++ ((l.foldl (fun acc p => odInsert acc (sel p).phid (sel p).id)
              [(diff.phid, diff.id)]).map fun kv => Event.fetchRaw kv.2)
          ++ [Event.checkout (resolveBase env.available
              ((l.getLast?.map fun q => (sel q).baseRevision).getD diff.baseRevision)
              dflt).1]) := by
  unfold load_patches_stack
  rw [hpar]
  simp only [Option.elim]
  unfold stackAfterParents
  simp only [processParents_ok env sel l [(diff.phid, diff.id)] diff.baseRevision hsel]
  simp only [fetchAll_ok env cont hraw]

/-- Claim C1: for a target diff whose resolved ancestor chain is l (nearest
parent first, possibly empty), load_patches_stack returns the patch entries
in reverse insertion order: the most distant ancestor first, then decreasing
ancestor distance, the target diff last, each entry pairing a diff phid with
its fetched raw content. -/
theorem stack_reverse_order (env : Env) (diff : Diff) (dflt : String) (l : List Nat)
    (sel : Nat → Diff) (cont : Nat → String) (fuel : Nat)
    (hedges : env.edges = chainEdges (diff.revisionPHID :: l))
    (hnd : (diff.revisionPHID :: l).Nodup)
    (hfuel : l.length + 2 ≤ fuel)
    (hsel : ∀ p ∈ l, selectLastDiff (env.searchDiffs p) = some (sel p))
    (hphid : (diff.phid :: l.map fun p => (sel p).phid).Nodup)
    (hraw : ∀ i, env.rawDiff i = some (cont i)) :
    ∃ base evs, load_patches_stack env fuel diff dflt =
      (Except.ok (base,
          (l.reverse.map fun p => ((sel p).phid, cont (sel p).id))
            ++ [(diff.phid, cont diff.id)]),
        evs) := by
  have hpar : load_parents env.edges fuel diff.revisionPHID = some l := by
    rw [hedges]; exact load_parents_chain_eq diff.revisionPHID l fuel hnd hfuel
  have hfold := foldl_odInsert sel l [(diff.phid, diff.id)] (by simpa using hphid)
  have heq := load_patches_stack_ok env diff dflt l sel cont fuel hpar hsel hraw
  rw [hfold] at heq
  simp only [List.map_append, List.map_cons, List.map_nil, List.singleton_append,
    List.reverse_cons, List.map_map, ← List.map_reverse] at heq
  exact ⟨_, _, heq⟩

/-- Claim C4: the candidate base revision is the declared baseRevision of the
diff selected for the last visited parent when the ancestor list is non
empty, and the baseRevision of the target diff itself when it is empty; when
that candidate is present and available it becomes the returned base. -/
theorem base_from_last_parent (env : Env) (diff : Diff) (dflt : String) (l : List Nat)
    (sel : Nat → Diff) (cont : Nat → String) (fuel : Nat)
    (hpar : load_parents env.edges fuel diff.revisionPHID = some l)
    (hsel : ∀ p ∈ l, selectLastDiff (env.searchDiffs p) = some (sel p))
    (hraw : ∀ i, env.rawDiff i = some (cont i)) :
    (∀ q b, l.getLast? = some q → (sel q).baseRevision = some b →
        env.available b = true →
        ∃ st evs, load_patches_stack env fuel diff dflt = (Except.ok (b, st), evs))
    ∧ ∀ b, l = [] → diff.baseRevision = some b → env.available b = true →
        ∃ st evs, load_patches_stack env fuel diff dflt = (Except.ok (b, st), evs) := by
  constructor
  · intro q b hq hb hav
    have hcand : ((l.getLast?.map fun r => (sel r).baseRevision).getD diff.baseRevision)
        = some b := by rw [hq]; simpa using hb
    have heq := load_patches_stack_ok env diff dflt l sel cont fuel hpar hsel hraw
    rw [hcand] at heq
    simp [resolveBase, hav] at heq
    exact ⟨_, _, heq⟩
  · intro b hl hb hav
    subst hl
    have hcand : ((([] : List Nat).getLast?.map fun r => (sel r).baseRevision).getD
        diff.baseRevision) = some b := by simpa using hb
    have heq := load_patches_stack_ok env diff dflt [] sel cont fuel hpar hsel hraw
    rw [hcand] at heq
    simp [resolveBase, hav] at heq
    exact ⟨_, _, heq⟩

/-- Claim C5: when the candidate base revision is absent or reported as not
available by the working copy, load_patches_stack falls back to the caller
supplied default revision, logs the missing base warning, and completes
successfully instead of failing. -/
theorem base_fallback_warns (env : Env) (diff : Diff) (dflt : String) (l : List Nat)
    (sel : Nat → Diff) (cont : Nat → String) (fuel : Nat)
    (hpar : load_parents env.edges fuel diff.revisionPHID = some l)
    (hsel : ∀ p ∈ l, selectLastDiff (env.searchDiffs p) = some (sel p))
    (hraw : ∀ i, env.rawDiff i = some (cont i))
    (hbad : ∀ b, ((l.getLast?.map fun q => (sel q).baseRevision).getD diff.baseRevision)
        = some b → env.available b = false) :
    ∃ st evs, load_patches_stack env fuel diff dflt = (Except.ok (dflt, st), evs)
      ∧ Event.warnMissingBase ∈ evs := by
  have hres : resolveBase env.available
      ((l.getLast?.map fun q => (sel q).baseRevision).getD diff.baseRevision) dflt
      = (dflt, true) := by
    cases hc : ((l.getLast?.map fun q => (sel q).baseRevision).getD diff.baseRevision) with
    | none => simp [resolveBase]
    | some b => simp [resolveBase, hbad b hc]
  have heq := load_patches_stack_ok env diff dflt l sel cont fuel hpar hsel hraw
  rw [hres] at heq
  simp at heq
  refine ⟨_, _, heq, ?_⟩
  simp

/-- selectLastDiff returns nothing only on an empty diff list. -/
lemma selectLastDiff_eq_none (diffs : List Diff) (h : selectLastDiff diffs = none) :
    diffs = [] := by
  unfold selectLastDiff at h
  have h2 : sortById diffs = [] := List.getLast?_eq_none_iff.mp h
  have h3 := (sortById_perm diffs).length_eq
  rw [h2] at h3
  exact List.length_eq_zero.mp h3.symm

/-- If some walked parent has no diff snapshots, the parent loop aborts with
the distinguished error for the first such parent. -/
lemma processParents_fails (env : Env) :
    ∀ (l : List Nat) (patches : List (Nat × Nat)) (b0 : Option String),
      (∃ p ∈ l, env.searchDiffs p = []) →
      ∃ q evs, q ∈ l ∧ env.searchDiffs q = [] ∧
        processParents env l patches b0
          = (Except.error (StackError.emptyParentDiffs q), evs) := by
  intro l
  induction l with
  | nil =>
    intro patches b0 h
    obtain ⟨p, hp, _⟩ := h
    simp at hp
  | cons p ps ih =>
    intro patches b0 h
    cases hs : selectLastDiff (env.searchDiffs p) with
    | none =>
      refine ⟨p, [Event.diffSearch p], by simp, selectLastDiff_eq_none _ hs, ?_⟩
      simp only [processParents, hs]
    | some d =>
      have hps : ∃ q ∈ ps, env.searchDiffs q = [] := by
        obtain ⟨q, hq, hqe⟩ := h
        rcases List.mem_cons.mp hq with h1 | h1
        · subst h1
          rw [hqe] at hs
          simp [selectLastDiff, sortById] at hs
        · exact ⟨q, h1, hqe⟩
      obtain ⟨q, evs, hq, hqe, heq⟩ := ih (odInsert patches d.phid d.id) d.baseRevision hps
      refine ⟨q, Event.diffSearch p :: evs, by simp [hq], hqe, ?_⟩
      simp only [processParents, hs]
      rw [heq]

/-- Claim C7: when the diff query of a revision reported as parent by the
walker returns zero snapshots, load_patches_stack fails with the
distinguished error for that revision (in the python source this failure
surfaces as the IndexError of sorted(...)[-1] on the empty list) instead of
silently skipping the revision. -/
theorem empty_parent_diffs_error (env : Env) (diff : Diff) (dflt : String)
    (l : List Nat) (fuel : Nat)
    (hpar : load_parents env.edges fuel diff.revisionPHID = some l)
    (hbad : ∃ p ∈ l, env.searchDiffs p = []) :
    ∃ q evs, q ∈ l ∧ env.searchDiffs q = [] ∧
      load_patches_stack env fuel diff dflt
        = (Except.error (StackError.emptyParentDiffs q), evs) := by
  obtain ⟨q, evs, hq, hqe, heq⟩ :=
    processParents_fails env l [(diff.phid, diff.id)] diff.baseRevision hbad
  refine ⟨q, evs, hq, hqe, ?_⟩
  unfold load_patches_stack
  rw [hpar]
  simp only [Option.elim]
  unfold stackAfterParents
  rw [heq]

/-- The parent loop records only diff search events, never a checkout. -/
lemma processParents_no_checkout (env : Env) :
    ∀ (l : List Nat) (patches : List (Nat × Nat)) (b0 : Option String),
      (processParents env l patches b0).2.countP Event.isCheckout = 0 := by
  intro l
  induction l with
  | nil => intro patches b0; simp [processParents]
  | cons p ps ih =>
    intro patches b0
    cases hs : selectLastDiff (env.searchDiffs p) with
    | none => simp [processParents, hs, Event.isCheckout]
    | some d =>
      simp only [processParents, hs]
      rw [List.countP_cons]
      simp [Event.isCheckout, ih]

/-- The fetch loop records only fetch events, never a checkout. -/
lemma fetchAll_no_checkout (env : Env) :
    ∀ pl : List (Nat × Nat), (fetchAll env pl).2.countP Event.isCheckout = 0 := by
  intro pl
  induction pl with
  | nil => simp [fetchAll]
  | cons kv rest ih =>
    obtain ⟨phid, i⟩ := kv
    cases hr : env.rawDiff i with
    | none => simp [fetchAll, hr, Event.isCheckout]
    | some s =>
      simp only [fetchAll, hr]
      rcases hf : fetchAll env rest with ⟨r, evs⟩
      rw [hf] at ih
      simp only at ih
      cases r with
      | error e => simpa [List.countP_cons, Event.isCheckout] using ih
      | ok xs => simpa [List.countP_cons, Event.isCheckout] using ih

/-- Claim C10: every raw patch fetch happens before the working copy is
mutated: a failing run of load_patches_stack performs no checkout at all,
and a successful run performs exactly one checkout, as its final action,
after all fetches. -/
theorem fetch_before_checkout (env : Env) (fuel : Nat) (diff : Diff) (dflt : String) :
    (∀ e, (load_patches_stack env fuel diff dflt).1 = Except.error e →
      (load_patches_stack env fuel diff dflt).2.countP Event.isCheckout = 0)
    ∧ ∀ base st, (load_patches_stack env fuel diff dflt).1 = Except.ok (base, st) →
      (load_patches_stack env fuel diff dflt).2.countP Event.isCheckout = 1
        ∧ (load_patches_stack env fuel diff dflt).2.getLast?
          = some (Event.checkout base) := by
  unfold load_patches_stack
  cases hpar : load_parents env.edges fuel diff.revisionPHID with
  | none =>
    simp only [Option.elim]
    exact ⟨fun e he => by simp, fun base st hok => by simp at hok⟩
  | some parents =>
    simp only [Option.elim]
    unfold stackAfterParents
    have h1 := processParents_no_checkout env parents [(diff.phid, diff.id)] diff.baseRevision
    rcases hpp : processParents env parents [(diff.phid, diff.id)] diff.baseRevision
      with ⟨r1, evs1⟩
    rw [hpp] at h1
    simp only at h1
    cases r1 with
    | error e1 =>
      exact ⟨fun e he => h1, fun base st hok => by simp at hok⟩
    | ok pc =>
      obtain ⟨patches, cand⟩ := pc
      dsimp only
      have h3 := fetchAll_no_checkout env patches
      rcases hfa : fetchAll env patches with ⟨r3, evs3⟩
      rw [hfa] at h3
      simp only at h3
      cases r3 with
      | error e3 =>
        refine ⟨fun e he => ?_, fun base st hok => by simp at hok⟩
        cases h2 : (resolveBase env.available cand dflt).2 <;>
          simp [List.countP_append, List.countP_cons, Event.isCheckout, h1, h3, h2]
      | ok fetched =>
        refine ⟨fun e he => by simp at he, fun base st hok => ?_⟩
        simp only [Except.ok.injEq, Prod.mk.injEq] at hok
        obtain ⟨hb, hst⟩ := hok
        constructor
        · cases h2 : (resolveBase env.available cand dflt).2 <;>
            simp [List.countP_append, List.countP_cons, Event.isCheckout, h1, h3, h2]
        · rw [← hb]
          simp only [← List.append_assoc]
          rw [List.getLast?_concat]

/-- Witness for claim C1: a target diff (phid 1, id 100, revision 10) with a
single parent revision 11 whose selected diff is (phid 2, id 200); the stack
comes back as parent content first, target content last. -/
theorem stack_reverse_order_witness :
    ∃ base evs, load_patches_stack
        ⟨chainEdges [10, 11], fun _ => [⟨2, 200, 11, some "pb"⟩], fun _ => some "p",
          fun _ => true⟩ 3 ⟨1, 100, 10, some "b"⟩ "central"
      = (Except.ok (base, [(2, "p"), (1, "p")]), evs) :=
  stack_reverse_order
    ⟨chainEdges [10, 11], fun _ => [⟨2, 200, 11, some "pb"⟩], fun _ => some "p",
      fun _ => true⟩
    ⟨1, 100, 10, some "b"⟩ "central" [11] (fun _ => ⟨2, 200, 11, some "pb"⟩)
    (fun _ => "p") 3 rfl (by decide) (by decide) (fun _ _ => rfl) (by decide)
    (fun _ => rfl)

/-- Witness for claim C4: with one parent the returned base is the base
revision recorded on the parent diff; with no parents it is the base
revision of the target diff itself. -/
theorem base_from_last_parent_witness :
    (∃ st evs, load_patches_stack
        ⟨chainEdges [10, 11], fun _ => [⟨2, 200, 11, some "pb"⟩], fun _ => some "p",
          fun _ => true⟩ 3 ⟨1, 100, 10, some "b"⟩ "central"
      = (Except.ok ("pb", st), evs))
    ∧ ∃ st evs, load_patches_stack
        ⟨fun _ => [], fun _ => [], fun _ => some "p", fun _ => true⟩ 2
          ⟨1, 100, 10, some "b"⟩ "central"
      = (Except.ok ("b", st), evs) :=
  ⟨(base_from_last_parent
      ⟨chainEdges [10, 11], fun _ => [⟨2, 200, 11, some "pb"⟩], fun _ => some "p",
        fun _ => true⟩
      ⟨1, 100, 10, some "b"⟩ "central" [11] (fun _ => ⟨2, 200, 11, some "pb"⟩)
      (fun _ => "p") 3 rfl (fun _ _ => rfl) (fun _ => rfl)).1 11 "pb" rfl rfl rfl,
    (base_from_last_parent
      ⟨fun _ => [], fun _ => [], fun _ => some "p", fun _ => true⟩
      ⟨1, 100, 10, some "b"⟩ "central" [] (fun _ => ⟨2, 200, 11, some "pb"⟩)
      (fun _ => "p") 2 rfl (fun p hp => absurd hp (List.not_mem_nil p))
      (fun _ => rfl)).2 "b" rfl rfl rfl⟩

/-- Witness for claim C5: the target diff carries no base revision and has
no parents, so the stack is built on the default revision and the missing
base warning is recorded. -/
theorem base_fallback_warns_witness :
    ∃ st evs, load_patches_stack
        ⟨fun _ => [], fun _ => [], fun _ => some "p", fun _ => true⟩ 2
          ⟨1, 100, 10, none⟩ "central"
      = (Except.ok ("central", st), evs) ∧ Event.warnMissingBase ∈ evs :=
  base_fallback_warns
    ⟨fun _ => [], fun _ => [], fun _ => some "p", fun _ => true⟩
    ⟨1, 100, 10, none⟩ "central" [] (fun _ => ⟨2, 200, 11, some "pb"⟩)
    (fun _ => "p") 2 rfl (fun p hp => absurd hp (List.not_mem_nil p))
    (fun _ => rfl) (by intro b hb; simp at hb)

/-- Witness for claim C7: the walker reports parent revision 11, but the
diff query for it returns zero snapshots, so the stack loading fails. -/
theorem empty_parent_diffs_error_witness :
    ∃ q evs, q ∈ ([11] : List Nat)
      ∧ (fun _ => ([] : List Diff)) q = []
      ∧ load_patches_stack
          ⟨chainEdges [10, 11], fun _ => [], fun _ => some "p", fun _ => true⟩ 3
            ⟨1, 100, 10, some "b"⟩ "central"
        = (Except.error (StackError.emptyParentDiffs q), evs) :=
  empty_parent_diffs_error
    ⟨chainEdges [10, 11], fun _ => [], fun _ => some "p", fun _ => true⟩
    ⟨1, 100, 10, some "b"⟩ "central" [11] 3 rfl ⟨11, by simp, rfl⟩

/-- Witness for claim C10 on a successful run: exactly one checkout event,
recorded last, after the fetch events. -/
theorem fetch_before_checkout_witness :
    (load_patches_stack ⟨fun _ => [], fun _ => [], fun _ => some "p", fun _ => true⟩ 2
        ⟨1, 100, 10, some "b"⟩ "central").2.countP Event.isCheckout = 1
      ∧ (load_patches_stack ⟨fun _ => [], fun _ => [], fun _ => some "p", fun _ => true⟩ 2
        ⟨1, 100, 10, some "b"⟩ "central").2.getLast? = some (Event.checkout "b") :=
  (fetch_before_checkout ⟨fun _ => [], fun _ => [], fun _ => some "p", fun _ => true⟩ 2
    ⟨1, 100, 10, some "b"⟩ "central").2 "b" [(1, "p")] rfl

/-- Claim C8: a conduit request whose parsed envelope carries a non null
error code fails with a ConduitError holding that code and the error info,
and the warning is logged before the exception propagates; with a null error
code nothing is raised and the result field of the envelope is returned. -/
theorem request_envelope {α : Type} (resp : ConduitResponse α) :
    (∀ c, resp.error_code = some c →
      request resp = (Except.error ⟨some c, resp.error_info⟩,
        [ConduitLog.warnError (some c) resp.error_info]))
    ∧ (resp.error_code = none → request resp = (Except.ok resp.result, [])) := by
  constructor
  · intro c hc
    simp [request, raise_if_error, hc]
  · intro hc
    simp [request, raise_if_error, hc]

/-- Witness for claim C8 on both envelope shapes. -/
theorem request_envelope_witness :
    request (⟨some "ERR-X", some "boom", (3 : Nat)⟩ : ConduitResponse Nat)
        = (Except.error ⟨some "ERR-X", some "boom"⟩,
          [ConduitLog.warnError (some "ERR-X") (some "boom")])
      ∧ request (⟨none, none, (5 : Nat)⟩ : ConduitResponse Nat) = (Except.ok 5, []) :=
  ⟨(request_envelope ⟨some "ERR-X", some "boom", 3⟩).1 "ERR-X" rfl,
    (request_envelope ⟨none, none, 5⟩).2 rfl⟩

/-- Truncating after appending an already truncated list is the same as
truncating the plain append. -/
lemma take_append_take {α : Type} (a b : List α) (m : Nat) :
    (a ++ b.take m).take m = (a ++ b).take m := by
  rw [List.take_append_eq_append_take, List.take_append_eq_append_take]
  congr 1
  rw [List.take_take]
  congr 1
  omega

/-- Running the lru cache over fresh pairwise distinct keys produces the
recency list obtained by pushing them all and truncating to maxsize. -/
lemma lruRun_fresh_keys (m : Nat) :
    ∀ (ks : List Nat) (s : LruState), ks.Nodup → (∀ x ∈ ks, x ∉ s.keys) →
      s.keys.length ≤ m →
      (lruRun m s ks).keys = (ks.reverse ++ s.keys).take m
        ∧ (lruRun m s ks).keys.length ≤ m := by
  intro ks
  induction ks with
  | nil =>
    intro s _ _ hlen
    exact ⟨by simp [lruRun, List.take_of_length_le hlen], by simpa [lruRun] using hlen⟩
  | cons k ks2 ih =>
    intro s hnd hfresh hlen
    have hk : k ∉ s.keys := hfresh k (by simp)
    have hstep : lruCall m s k = ⟨(k :: s.keys).take m, s.calls + 1⟩ := by
      simp [lruCall, hk]
    have hrun : lruRun m s (k :: ks2) = lruRun m (lruCall m s k) ks2 := rfl
    have hnd2 := (List.nodup_cons.mp hnd).2
    have hfresh2 : ∀ x ∈ ks2, x ∉ (lruCall m s k).keys := by
      intro x hx hmem
      rw [hstep] at hmem
      simp only at hmem
      have hx2 : x ∈ k :: s.keys := List.mem_of_mem_take hmem
      rcases List.mem_cons.mp hx2 with h1 | h1
      · exact (List.nodup_cons.mp hnd).1 (h1 ▸ hx)
      · exact hfresh x (by simp [hx]) h1
    have hlen2 : (lruCall m s k).keys.length ≤ m := by
      rw [hstep]
      exact List.length_take_le m (k :: s.keys)
    obtain ⟨hkeys, hlen3⟩ := ih (lruCall m s k) hnd2 hfresh2 hlen2
    constructor
    · rw [hrun, hkeys, hstep]
      simp only
      rw [take_append_take]
      simp [List.append_assoc]
    · rw [hrun]
      exact hlen3

/-- A call for a key outside the recency list performs one remote request. -/
lemma lruCall_miss (m : Nat) (s : LruState) (k : Nat) (h : k ∉ s.keys) :
    (lruCall m s k).calls = s.calls + 1 := by
  simp [lruCall, h]

/-- Counterexample to claim C9: the cache wrapped around the existence check
(functools.lru_cache with maxsize 2048) is a bounded lru cache, not an
indefinite one.  After a first call for identity 0 followed by calls for
2048 distinct other identities, the repeated call for identity 0 is a miss
and performs one more underlying remote request, contradicting the claim
that the cached answer is returned regardless of how many distinct
identities were queried in between. -/
theorem lru_eviction_cex :
    (lruCall 2048
        (lruRun 2048 (lruCall 2048 ⟨[], 0⟩ 0) ((List.range 2048).map fun n => n + 1))
        0).calls
      = (lruRun 2048 (lruCall 2048 ⟨[], 0⟩ 0)
          ((List.range 2048).map fun n => n + 1)).calls + 1 := by
  have hs0 : lruCall 2048 (⟨[], 0⟩ : LruState) 0 = ⟨[0], 1⟩ := rfl
  have hks_nodup : ((List.range 2048).map fun n => n + 1).Nodup :=
    List.Nodup.map (fun a b h => by omega) (List.nodup_range 2048)
  have hks_fresh : ∀ x ∈ (List.range 2048).map fun n => n + 1,
      x ∉ (⟨[0], 1⟩ : LruState).keys := by
    intro x hx
    simp only [List.mem_map, List.mem_range] at hx
    obtain ⟨n, hn, rfl⟩ := hx
    simp
  obtain ⟨hkeys, hlen⟩ := lruRun_fresh_keys 2048 ((List.range 2048).map fun n => n + 1)
    ⟨[0], 1⟩ hks_nodup hks_fresh (by decide)
  have hrevlen : (((List.range 2048).map fun n => n + 1).reverse).length = 2048 := by
    simp
  have h0notin : 0 ∉ (lruRun 2048 (⟨[0], 1⟩ : LruState)
      ((List.range 2048).map fun n => n + 1)).keys := by
    rw [hkeys]
    rw [List.take_left' hrevlen]
    simp only [List.mem_reverse, List.mem_map, List.mem_range]
    rintro ⟨n, hn, hc⟩
    omega
  rw [hs0]
  exact lruCall_miss 2048 _ 0 h0notin

/-- Erasing a different key never pushes a key further back. -/
lemma keyPos_lruErase_le (k j : Nat) (hne : j ≠ k) :
    ∀ l : List Nat, keyPos k (lruErase j l) ≤ keyPos k l := by
  intro l
  induction l with
  | nil => simp [lruErase]
  | cons a l2 ih =>
    by_cases ha : a = j
    · have hak : a ≠ k := by rw [ha]; exact hne
      simp only [lruErase, if_pos ha, keyPos, if_neg hak]
      omega
    · by_cases hak : a = k
      · simp [lruErase, if_neg ha, keyPos, if_pos hak]
      · simp only [lruErase, if_neg ha, keyPos, if_neg hak]
        omega

/-- Erasing a different key keeps membership. -/
lemma mem_lruErase (k j : Nat) (hne : j ≠ k) :
    ∀ l : List Nat, k ∈ l → k ∈ lruErase j l := by
  intro l
  induction l with
  | nil => intro h; simp at h
  | cons a l2 ih =>
    intro h
    by_cases ha : a = j
    · simp only [lruErase, if_pos ha]
      rcases List.mem_cons.mp h with h1 | h1
      · exact absurd (h1.trans ha) hne.symm
      · exact h1
    · simp only [lruErase, if_neg ha]
      rcases List.mem_cons.mp h with h1 | h1
      · simp [h1]
      · simp [ih h1]

/-- Truncation keeps a key whose position is strictly inside the bound. -/
lemma keyPos_take (k : Nat) :
    ∀ (l : List Nat) (n : Nat), k ∈ l → keyPos k l < n →
      k ∈ l.take n ∧ keyPos k (l.take n) = keyPos k l := by
  intro l
  induction l with
  | nil => intro n h; simp at h
  | cons a l2 ih =>
    intro n hmem hpos
    by_cases hak : a = k
    · subst hak
      cases n with
      | zero => simp [keyPos] at hpos
      | succ n2 => simp [List.take_succ_cons, keyPos]
    · cases n with
      | zero =>
        simp only [keyPos, if_neg hak] at hpos
        omega
      | succ n2 =>
        simp only [keyPos, if_neg hak] at hpos
        have hmem2 : k ∈ l2 := by
          rcases List.mem_cons.mp hmem with h1 | h1
          · exact absurd h1.symm hak
          · exact h1
        obtain ⟨h1, h2⟩ := ih n2 hmem2 (by omega)
        constructor
        · simp [List.take_succ_cons, List.mem_cons, h1]
        · simp only [List.take_succ_cons, keyPos, if_neg hak, h2]

/-- One step of the lru cache keeps a key that sits strictly inside the
capacity, moving it back by at most one position. -/
lemma lruCall_pos_step (m j k : Nat) (s : LruState) (hne : j ≠ k) (hk : k ∈ s.keys)
    (hpos : keyPos k s.keys + 1 < m) :
    k ∈ (lruCall m s j).keys
      ∧ keyPos k (lruCall m s j).keys ≤ keyPos k s.keys + 1 := by
  by_cases hj : j ∈ s.keys
  · simp only [lruCall, if_pos hj]
    constructor
    · exact List.mem_cons_of_mem j (mem_lruErase k j hne s.keys hk)
    · simp only [keyPos, if_neg hne]
      have h2 := keyPos_lruErase_le k j hne s.keys
      omega
  · simp only [lruCall, if_neg hj]
    have hin : k ∈ j :: s.keys := List.mem_cons_of_mem j hk
    have hposc : keyPos k (j :: s.keys) < m := by
      simp only [keyPos, if_neg hne]
      omega
    obtain ⟨h1, h2⟩ := keyPos_take k (j :: s.keys) m hin hposc
    refine ⟨h1, ?_⟩
    rw [h2]
    simp only [keyPos, if_neg hne]
    omega

/-- A run of the lru cache over at most capacity minus one calls for other
keys keeps a cached key present. -/
lemma lruRun_retain (m k : Nat) :
    ∀ (ks : List Nat) (s : LruState), (∀ j ∈ ks, j ≠ k) → k ∈ s.keys →
      keyPos k s.keys + ks.length < m →
      k ∈ (lruRun m s ks).keys
        ∧ keyPos k (lruRun m s ks).keys ≤ keyPos k s.keys + ks.length := by
  intro ks
  induction ks with
  | nil => intro s _ hk _; exact ⟨hk, by simp [lruRun]⟩
  | cons j ks2 ih =>
    intro s hne hk hpos
    simp only [List.length_cons] at hpos
    have hj : j ≠ k := hne j (by simp)
    obtain ⟨h1, h2⟩ := lruCall_pos_step m j k s hj hk (by omega)
    have hrun : lruRun m s (j :: ks2) = lruRun m (lruCall m s j) ks2 := rfl
    obtain ⟨h3, h4⟩ := ih (lruCall m s j) (fun q hq => hne q (by simp [hq])) h1 (by omega)
    rw [hrun]
    refine ⟨h3, ?_⟩
    simp only [List.length_cons]
    omega

/-- Claim C9 amended: the existence check is cached per revision identity in
a least recently used cache of maximum size 2048: after a first call for an
identity, a later call for the same identity returns the cached answer
without a new remote request as long as fewer than 2048 calls for other
identities intervene (2048 distinct intervening identities can evict the
entry, as the counterexample shows). -/
theorem lru_cached_bounded (k : Nat) (ks : List Nat) (s : LruState)
    (hk : k ∈ s.keys) (hne : ∀ j ∈ ks, j ≠ k)
    (hpos : keyPos k s.keys + ks.length < 2048) :
    (lruCall 2048 (lruRun 2048 s ks) k).calls = (lruRun 2048 s ks).calls := by
  obtain ⟨h1, _⟩ := lruRun_retain 2048 k ks s hne hk hpos
  simp [lruCall, h1]

/-- Witness for the amended claim C9: key 7 cached, three other keys
queried, the repeated call for 7 performs no remote request. -/
theorem lru_cached_bounded_witness :
    (lruCall 2048 (lruRun 2048 ⟨[7], 1⟩ [1, 2, 3]) 7).calls
      = (lruRun 2048 ⟨[7], 1⟩ [1, 2, 3]).calls :=
  lru_cached_bounded 7 [1, 2, 3] ⟨[7], 1⟩ (by decide) (by decide) (by decide)

end Phab
